import Mathlib

/-!
Verification development for the SpeakToMe real-time voice session engine.

The definitions below are a shallow embedding of the audio/session core of
the `useGeminiLive` hook family: the playback scheduler (`nextStartTimeRef`
plus the `audioSourcesRef` set of scheduled buffer sources), the interrupt
handler, the transcript reconciler of the `updateMessages` variant, the
last-message-append transcript variant, the session lifecycle (`cleanup`,
`onerror`, `connect`), and the out-of-band text-send operations.

Clock values (`AudioContext.currentTime`) and chunk durations are embedded
as integers over a discrete time base (e.g. sample ticks); the scheduler
only ever applies `max`, `+` and `≤` to them, so its behavior is the same
over any linearly ordered time model.  The clock is passed explicitly into
each operation.
-/

namespace SpeakToMe

/-- A scheduled playback chunk: its scheduled start on the output clock and
its decoded duration.  Embeds an `AudioBufferSourceNode` that has been
started at `start` with a buffer of length `duration`. -/
structure Chunk where
  start : ℤ
  duration : ℤ
deriving DecidableEq, Repr

/-- Playback scheduler state: `nextStartTimeRef.current` and the
`audioSourcesRef.current` set of live chunks (kept in scheduling order). -/
structure SchedState where
  nextStartTime : ℤ
  liveChunks : List Chunk
deriving DecidableEq, Repr

/-- The start time the scheduler assigns to a chunk enqueued now:
`Math.max(nextStartTimeRef.current, outputAudioContext.currentTime)`. -/
def scheduledStart (s : SchedState) (now : ℤ) : ℤ :=
  max s.nextStartTime now

/-- Enqueue one decoded chunk.  Embeds the audio branch of `onmessage`:
`nextStartTime = max(nextStartTime, currentTime)`, `source.start(nextStartTime)`,
`nextStartTime += audioBuffer.duration`, `audioSources.add(source)`. -/
def enqueue (s : SchedState) (now duration : ℤ) : SchedState :=
  { nextStartTime := scheduledStart s now + duration,
    liveChunks := s.liveChunks ++ [{ start := scheduledStart s now, duration := duration }] }

/-- Run a sequence of enqueues; each element is `(currentTime, duration)` at
that enqueue. -/
def runEnqueues : SchedState → List (ℤ × ℤ) → SchedState
  | s, [] => s
  | s, e :: es => runEnqueues (enqueue s e.1 e.2) es

/-- The `interrupted` branch of `onmessage`: stop every source in
`audioSourcesRef`, clear the set, and reset `nextStartTimeRef` to the output
context's `currentTime` (passed here as `now`; the code's context-absent
fallback writes `0` and never arises while the handler is live). -/
def interrupt (_s : SchedState) (now : ℤ) : SchedState :=
  { nextStartTime := now, liveChunks := [] }

/-- The guarded audio branch (the `try`/`catch` form of `onmessage`): the
clamp `nextStartTime = max(nextStartTime, currentTime)` runs first; then
`decodeAudioData` either yields a buffer of some duration (`some d`) or
throws (`none`), in which case the `catch` only logs and the chunk is
dropped before any source is created or added. -/
def decodeAndSchedule (s : SchedState) (now : ℤ) (decoded : Option ℤ) : SchedState :=
  match decoded with
  | some d => enqueue s now d
  | none => { s with nextStartTime := max s.nextStartTime now }

/-- Transcript roles, the `'user' | 'model'` union of `ChatMessage.role`. -/
inductive Role where
  | user
  | model
deriving DecidableEq, Repr

/-- A `ChatMessage` of the `updateMessages` hook variant: `id`, `role`,
`text`, `isTentative`.  Ids are opaque React keys (`Date.now()` plus random
digits); the reconciliation logic never reads them. -/
structure Msg where
  id : String
  role : Role
  text : String
  isTentative : Bool
deriving DecidableEq, Repr

/-- The deduplication safeguard of `updateMessages`: with a final user
update, check whether the very last message is already a final user message
with the exact same text. -/
def isDupFinalUser (newText : String) : List Msg → Bool
  | [] => false
  | [m] => if m.role = Role.user ∧ m.text = newText ∧ m.isTentative = false then true else false
  | _ :: m2 :: rest => isDupFinalUser newText (m2 :: rest)

/-- The backwards search of `updateMessages`: find the last tentative
message of the given role and replace it by `f` of it.  `none` when no
tentative message of that role exists. -/
def updateLastTentative (r : Role) (f : Msg → Msg) : List Msg → Option (List Msg)
  | [] => none
  | m :: rest =>
    match updateLastTentative r f rest with
    | some rest2 => some (m :: rest2)
    | none => if m.role = r ∧ m.isTentative = true then some (f m :: rest) else none

/-- The in-place finalization of `updateMessages`:
`text: newText || old.text, isTentative: false`. -/
def finalizeMsg (newText : String) (m : Msg) : Msg :=
  { m with text := if newText = "" then m.text else newText, isTentative := false }

/-- The in-place tentative rewrite of `updateMessages`: `text: newText`. -/
def retextMsg (newText : String) (m : Msg) : Msg :=
  { m with text := newText }

/-- The `updateMessages` state updater of the transcript reconciler: the
dedup safeguard for final user updates, then the backwards search for this
role's tentative message (updated in place), else a freshly created message
(unless `newText` is empty). -/
def updateMessages (newText : String) (r : Role) (isFinal : Bool) (fresh : String)
    (msgs : List Msg) : List Msg :=
  if isFinal = true ∧ r = Role.user ∧ isDupFinalUser newText msgs = true then msgs
  else
    match updateLastTentative r (if isFinal then finalizeMsg newText else retextMsg newText) msgs with
    | some msgs2 => msgs2
    | none =>
      if newText = "" then msgs
      else msgs ++ [{ id := fresh, role := r, text := newText, isTentative := !isFinal }]

/-- Reconciler state of the `updateMessages` hook variant: the message log
and the two accumulation refs `currentInputTranscriptionRef` (user) and
`currentOutputTranscriptionRef` (model). -/
structure TState where
  messages : List Msg
  inputAcc : String
  outputAcc : String
deriving DecidableEq, Repr

/-- Inbound transcript-relevant server events.  A single server message may
carry several of these; the handler processes them in this order (deltas,
then turn completion, then interruption), so one message maps to a short
sequence of events. -/
inductive Ev where
  | deltaModel (t : String)
  | deltaUser (t : String)
  | turnComplete
  | interrupted
deriving DecidableEq, Repr

/-- Whether an event is a transcript delta (as opposed to a turn boundary). -/
def Ev.isDelta : Ev → Bool
  | .deltaModel _ => true
  | .deltaUser _ => true
  | .turnComplete => false
  | .interrupted => false

/-- The `turnComplete` finalization of the user side: when the input
accumulator is nonempty, finalize it through `updateMessages` and clear it. -/
def finalizeInput (fresh : String) (s : TState) : TState :=
  if s.inputAcc = "" then s
  else
    { s with messages := updateMessages s.inputAcc Role.user true fresh s.messages,
             inputAcc := "" }

/-- The `turnComplete` finalization of the model side: when the output
accumulator is nonempty, finalize it through `updateMessages` and clear it. -/
def finalizeOutput (fresh : String) (s : TState) : TState :=
  if s.outputAcc = "" then s
  else
    { s with messages := updateMessages s.outputAcc Role.model true fresh s.messages,
             outputAcc := "" }

/-- One transcript event of the `updateMessages` hook variant's `onmessage`
handler.  Empty deltas are skipped (the handler tests `text` for
truthiness); `turnComplete` finalizes user then model; `interrupted`
finalizes the pending model text with the appended truncation marker
`" ..."` and clears only the model accumulator. -/
def stepT (fresh : String) (s : TState) : Ev → TState
  | Ev.deltaModel t =>
    if t = "" then s
    else
      { s with outputAcc := s.outputAcc ++ t,
               messages := updateMessages (s.outputAcc ++ t) Role.model false fresh s.messages }
  | Ev.deltaUser t =>
    if t = "" then s
    else
      { s with inputAcc := s.inputAcc ++ t,
               messages := updateMessages (s.inputAcc ++ t) Role.user false fresh s.messages }
  | Ev.turnComplete => finalizeOutput fresh (finalizeInput fresh s)
  | Ev.interrupted =>
    if s.outputAcc = "" then s
    else
      { s with messages := updateMessages (s.outputAcc ++ " ...") Role.model true fresh s.messages,
               outputAcc := "" }

/-- Fold a sequence of events through the reconciler. -/
def runT (fresh : String) : TState → List Ev → TState
  | s, [] => s
  | s, e :: es => runT fresh (stepT fresh s e) es

/-- Count of tentative (non-final) messages of a role in a log. -/
def tentCount (r : Role) : List Msg → Nat
  | [] => 0
  | m :: rest => (if m.role = r ∧ m.isTentative = true then 1 else 0) + tentCount r rest

/-- The sublist of messages of a role, in order. -/
def msgsOfRole (r : Role) : List Msg → List Msg
  | [] => []
  | m :: rest => if m.role = r then m :: msgsOfRole r rest else msgsOfRole r rest

/-- A `ChatMessage` of the inline-hook transcript variant, which uses an
`isFinal` flag and a numeric timestamp. -/
structure BMsg where
  id : String
  role : Role
  text : String
  isFinal : Bool
  timestamp : Nat
deriving DecidableEq, Repr

/-- Blank test embedding the JS `!textUpdate.trim()` check: true exactly
when every character of the delta is whitespace (so trimming leaves the
empty string). -/
def isBlank (t : String) : Bool :=
  t.data.all Char.isWhitespace

/-- Creation branch of the inline-hook delta handler: blank (empty-after-
trim) updates never create a message; otherwise a new non-final message
holding just this delta is appended. -/
def addNewB (ts : Nat) (msgs : List BMsg) (r : Role) (t : String) : List BMsg :=
  if isBlank t = true then msgs
  else msgs ++ [{ id := toString ts, role := r, text := t, isFinal := false, timestamp := ts }]

/-- The inline-hook transcript delta handler (`setMessages` updater): if the
last message has the same role and is not final, append the delta to its
text; otherwise create a new message. -/
def addTranscriptB (ts : Nat) (msgs : List BMsg) (r : Role) (t : String) : List BMsg :=
  match msgs.getLast? with
  | some last =>
    if last.role = r ∧ last.isFinal = false then
      msgs.dropLast ++ [{ last with text := last.text ++ t }]
    else addNewB ts msgs r t
  | none => addNewB ts msgs r t

/-- The inline-hook delta entry point: the surrounding guard requires a
nonempty `textUpdate` before `setMessages` runs. -/
def onDeltaB (ts : Nat) (msgs : List BMsg) (r : Role) (t : String) : List BMsg :=
  if t = "" then msgs else addTranscriptB ts msgs r t

/-- The inline-hook handler for `turnComplete` or `interrupted`:
`setMessages(prev => prev.map(m => ({ ...m, isFinal: true })))` — every
message of every role is marked final. -/
def finalizeAllB (msgs : List BMsg) : List BMsg :=
  msgs.map fun m => { m with isFinal := true }

/-- Count of non-final messages of a role in an inline-hook log. -/
def tentCountB (r : Role) : List BMsg → Nat
  | [] => 0
  | m :: rest => (if m.role = r ∧ m.isFinal = false then 1 else 0) + tentCountB r rest

/-- Session lifecycle status, the `SessionStatus` enum. -/
inductive Status where
  | idle
  | connecting
  | connected
  | error
deriving DecidableEq, Repr

/-- The `LanguageConfig` passed to the hook (modes and difficulty are plain
strings here; their values never influence the session logic). -/
structure LanguageConfig where
  nativeLanguage : String
  targetLanguage : String
  mode : String
  difficulty : String
  topicOrWords : Option String
deriving DecidableEq, Repr

/-- Session-level state of the hook: status, surfaced error message, the
playback scheduler, and the held resources (mic stream, the two audio
contexts, the live channel promise).  `acquisitions` counts how many times
`connect` constructed fresh contexts / acquired the mic / opened a channel,
so re-acquisition over a live session is observable. -/
structure Session where
  status : Status
  errorMessage : String
  sched : SchedState
  micOpen : Bool
  inputCtxOpen : Bool
  outputCtxOpen : Bool
  channelOpen : Bool
  acquisitions : Nat
deriving DecidableEq, Repr

/-- The shared `cleanup` teardown routine: stop and clear all playing audio,
close both contexts, stop the mic stream, drop the session promise, set
status to `IDLE`, and zero `nextStartTimeRef`. -/
def cleanup (s : Session) : Session :=
  { s with sched := { nextStartTime := 0, liveChunks := [] },
           inputCtxOpen := false, outputCtxOpen := false,
           micOpen := false, channelOpen := false,
           status := Status.idle }

/-- The channel's `onerror` callback: set the surfaced error message, then
run the shared `cleanup` teardown. -/
def onerror (s : Session) : Session :=
  cleanup { s with errorMessage := "Connection error. Please try again." }

/-- The `connect` entry point up to resource acquisition: the only guard is
`if (!config) return;`.  With a config present it sets status to
`CONNECTING`, clears the error message, and acquires fresh contexts, mic
stream and channel — regardless of the current status. -/
def connect (cfg : Option LanguageConfig) (s : Session) : Session :=
  match cfg with
  | none => s
  | some _ =>
    { s with status := Status.connecting, errorMessage := "",
             inputCtxOpen := true, outputCtxOpen := true,
             micOpen := true, channelOpen := true,
             acquisitions := s.acquisitions + 1 }

/-- Combined state for the `sendText` operation of the `updateMessages`
variant: scheduler, message log, accumulators, channel and output-context
availability, and the ordered log of texts handed to the channel. -/
structure LiveState where
  sched : SchedState
  messages : List Msg
  inputAcc : String
  outputAcc : String
  channelOpen : Bool
  outputCtxOpen : Bool
  sent : List String
deriving DecidableEq, Repr

/-- The `sendText` operation (`updateMessages` variant): guarded on the
session promise; stops every live source and clears the set, resets
`nextStartTimeRef` to `currentTime` when the output context exists,
optimistically appends the user message as final, and sends the text turn
to the channel. -/
def sendText (now : ℤ) (text fresh : String) (s : LiveState) : LiveState :=
  if s.channelOpen = false then s
  else
    { s with
      sched := { nextStartTime := if s.outputCtxOpen then now else s.sched.nextStartTime,
                 liveChunks := [] },
      messages := s.messages ++ [{ id := fresh, role := Role.user, text := text, isTentative := false }],
      sent := s.sent ++ [text] }

/-- Combined state for the inline-hook `sendTextMessage` operation. -/
structure HookState where
  sched : SchedState
  messagesB : List BMsg
  channelOpen : Bool
  sent : List String
deriving DecidableEq, Repr

/-- The inline-hook `sendTextMessage`: guarded on the session promise; it
optimistically appends the user message as final and sends the text — it
never touches the playback scheduler. -/
def sendTextMessage (ts : Nat) (text : String) (s : HookState) : HookState :=
  if s.channelOpen = false then s
  else
    { s with
      messagesB := s.messagesB ++
        [{ id := toString ts, role := Role.user, text := text, isFinal := true, timestamp := ts }],
      sent := s.sent ++ [text] }

end SpeakToMe

namespace SpeakToMe

theorem enqueue_liveChunks (s : SchedState) (now d : ℤ) :
    (enqueue s now d).liveChunks
      = s.liveChunks ++ [{ start := scheduledStart s now, duration := d }] := rfl

theorem enqueue_nextStartTime (s : SchedState) (now d : ℤ) :
    (enqueue s now d).nextStartTime = scheduledStart s now + d := rfl

theorem scheduledStart_ge_nextStartTime (s : SchedState) (now : ℤ) :
    s.nextStartTime ≤ scheduledStart s now := le_max_left _ _

/-- Every chunk scheduled by a run of enqueues starting from a state whose
`nextStartTime` is at least `t`, fed only clock readings at or after `t` and
nonnegative durations, starts at or after `t`. -/
theorem runEnqueues_start_ge (t : ℤ) :
    ∀ (es : List (ℤ × ℤ)) (s : SchedState),
      t ≤ s.nextStartTime →
      (∀ e ∈ es, t ≤ e.1 ∧ 0 ≤ e.2) →
      (∀ c ∈ s.liveChunks, t ≤ c.start) →
      ∀ c ∈ (runEnqueues s es).liveChunks, t ≤ c.start := by
  intro es
  induction es with
  | nil =>
    intro s _ _ hc
    simpa [runEnqueues] using hc
  | cons e es ih =>
    intro s hnst hes hc
    have he := hes e (List.mem_cons_self e es)
    have hstart : t ≤ scheduledStart s e.1 :=
      le_trans hnst (le_max_left _ _)
    refine ih (enqueue s e.1 e.2) ?_ ?_ ?_
    · have : t + 0 ≤ scheduledStart s e.1 + e.2 :=
        add_le_add hstart he.2
      simpa [enqueue_nextStartTime] using this
    · intro e2 he2
      exact hes e2 (List.mem_cons_of_mem e he2)
    · intro c hcmem
      rw [enqueue_liveChunks] at hcmem
      rcases List.mem_append.mp hcmem with h | h
      · exact hc c h
      · have : c = { start := scheduledStart s e.1, duration := e.2 } :=
          List.mem_singleton.mp h
        rw [this]
        exact hstart

/-- C1: an enqueued chunk is scheduled at `max(nextStartTime, clock-now)`;
afterwards `nextStartTime` is that start plus the chunk's duration; when the
queue has drained (`nextStartTime ≤ now`) the chunk starts immediately at
the clock reading; and a chunk enqueued before the previous one finishes
(`now2 ≤` the previous chunk's end) starts exactly at the previous chunk's
end. -/
theorem c1_gapless_scheduling (s : SchedState) (now d now2 : ℤ) :
    (enqueue s now d).liveChunks
        = s.liveChunks ++ [{ start := scheduledStart s now, duration := d }] ∧
    (enqueue s now d).nextStartTime = scheduledStart s now + d ∧
    (s.nextStartTime ≤ now → scheduledStart s now = now) ∧
    (now2 ≤ (enqueue s now d).nextStartTime →
      scheduledStart (enqueue s now d) now2 = scheduledStart s now + d) := by
  refine ⟨rfl, rfl, fun h => max_eq_right h, fun h => ?_⟩
  have h2 : now2 ≤ scheduledStart s now + d := h
  simp only [scheduledStart, enqueue]
  exact max_eq_left h2

/-- C1 witness: from `nextStartTime = 1`, enqueueing at clock `2` with
duration `3` starts at `2` and sets `nextStartTime = 5`; a second enqueue at
clock `4 ≤ 5` would start at `5`. -/
theorem c1_gapless_scheduling_witness :
    (enqueue ⟨1, []⟩ 2 3).liveChunks
        = [] ++ [{ start := scheduledStart ⟨1, []⟩ 2, duration := 3 }] ∧
    (enqueue ⟨1, []⟩ 2 3).nextStartTime = scheduledStart ⟨1, []⟩ 2 + 3 ∧
    scheduledStart ⟨1, []⟩ 2 = 2 ∧
    scheduledStart (enqueue ⟨1, []⟩ 2 3) 4 = scheduledStart ⟨1, []⟩ 2 + 3 := by
  have h := c1_gapless_scheduling ⟨1, []⟩ 2 3 4
  exact ⟨h.1, h.2.1, h.2.2.1 (by decide), h.2.2.2 (by decide)⟩

/-- C2: after the interrupt handler runs at clock `tI`, the live set is
empty and `nextStartTime = tI`; every chunk enqueued afterwards (clock
readings at or after `tI`, nonnegative durations) is scheduled to start at
or after the interrupt instant. -/
theorem c2_interrupt_atomicity (s : SchedState) (tI : ℤ) (es : List (ℤ × ℤ))
    (h : ∀ e ∈ es, tI ≤ e.1 ∧ 0 ≤ e.2) :
    (interrupt s tI).liveChunks = [] ∧
    (interrupt s tI).nextStartTime = tI ∧
    ∀ c ∈ (runEnqueues (interrupt s tI) es).liveChunks, tI ≤ c.start := by
  refine ⟨rfl, rfl, ?_⟩
  refine runEnqueues_start_ge tI es (interrupt s tI) (le_refl tI) h ?_
  intro c hc
  simp [interrupt] at hc

/-- C2 witness: interrupting at clock `2` with chunks pending, then
enqueueing two chunks at clocks `3` and `2`. -/
theorem c2_interrupt_atomicity_witness :
    (interrupt ⟨100, [⟨0, 5⟩]⟩ 2).liveChunks = [] ∧
    (interrupt ⟨100, [⟨0, 5⟩]⟩ 2).nextStartTime = 2 ∧
    ∀ c ∈ (runEnqueues (interrupt ⟨100, [⟨0, 5⟩]⟩ 2)
        [((3 : ℤ), (1 : ℤ)), ((2 : ℤ), (2 : ℤ))]).liveChunks, (2 : ℤ) ≤ c.start :=
  c2_interrupt_atomicity ⟨100, [⟨0, 5⟩]⟩ 2 [((3 : ℤ), (1 : ℤ)), ((2 : ℤ), (2 : ℤ))] (by decide)

/-- C7: a chunk whose decode fails leaves the live set untouched and only
clamps `nextStartTime` to the current clock (no duration is added); under a
monotone clock, a later successful enqueue schedules exactly as it would
have had the malformed chunk never arrived. -/
theorem c7_decode_error_skipped (s : SchedState) (now now2 d2 : ℤ) :
    (decodeAndSchedule s now none).liveChunks = s.liveChunks ∧
    (decodeAndSchedule s now none).nextStartTime = max s.nextStartTime now ∧
    (now ≤ now2 →
      decodeAndSchedule (decodeAndSchedule s now none) now2 (some d2)
        = decodeAndSchedule s now2 (some d2)) := by
  refine ⟨rfl, rfl, fun h => ?_⟩
  have hmax : max (max s.nextStartTime now) now2 = max s.nextStartTime now2 := by
    rw [max_assoc, max_eq_right h]
  simp [decodeAndSchedule, enqueue, scheduledStart, hmax]

/-- C7 witness: a failed decode at clock `2` followed by a successful chunk
at clock `3` with duration `4`. -/
theorem c7_decode_error_skipped_witness :
    (decodeAndSchedule ⟨1, []⟩ 2 none).liveChunks = (⟨1, []⟩ : SchedState).liveChunks ∧
    (decodeAndSchedule ⟨1, []⟩ 2 none).nextStartTime = max (1 : ℤ) 2 ∧
    decodeAndSchedule (decodeAndSchedule ⟨1, []⟩ 2 none) 3 (some 4)
        = decodeAndSchedule ⟨1, []⟩ 3 (some 4) := by
  have h := c7_decode_error_skipped ⟨1, []⟩ 2 3 4
  exact ⟨h.1, h.2.1, h.2.2 (by decide)⟩

/-- C3 counterexample: the inline-hook variant's `Interrupted` handling maps
every message to final.  On a log holding only the user role's tentative
message, the user message is finalized (its tentative status is destroyed,
with no truncation marker), so the handler does not leave the user role's
tentative message untouched. -/
theorem c3_user_tentative_finalized_counterexample :
    finalizeAllB [{ id := "1", role := Role.user, text := "Hel", isFinal := false, timestamp := 1 }]
      = [{ id := "1", role := Role.user, text := "Hel", isFinal := true, timestamp := 1 }] ∧
    tentCountB Role.user
      [{ id := "1", role := Role.user, text := "Hel", isFinal := false, timestamp := 1 }] = 1 ∧
    tentCountB Role.user
      (finalizeAllB
        [{ id := "1", role := Role.user, text := "Hel", isFinal := false, timestamp := 1 }]) = 0 := by
  decide

/-- C5 counterexample: in the inline-hook transcript variant, the delta
sequence user `"Hel"`, model `"Hi"`, user `"lo"` (an interleaving with no
turn boundary) leaves two tentative user messages in the log. -/
theorem c5_two_tentative_counterexample :
    tentCountB Role.user
      (onDeltaB 3 (onDeltaB 2 (onDeltaB 1 [] Role.user "Hel") Role.model "Hi") Role.user "lo")
      = 2 := by
  decide

/-- C6 counterexample: two identical consecutive user turns (`"Hi"` then
`TurnComplete`, twice) finalize through the tentative-in-place path, which
bypasses the dedup safeguard, leaving two adjacent final user messages with
identical text. -/
theorem c6_adjacent_duplicate_counterexample :
    (runT "x" ⟨[], "", ""⟩
        [Ev.deltaUser "Hi", Ev.turnComplete, Ev.deltaUser "Hi", Ev.turnComplete]).messages
      = [{ id := "x", role := Role.user, text := "Hi", isTentative := false },
         { id := "x", role := Role.user, text := "Hi", isTentative := false }] := by
  decide

/-- C8 counterexample: the `onerror` callback on a connected session ends
with status `idle` (the shared `cleanup` sets `IDLE` as its final step), not
status `error`. -/
theorem c8_status_idle_counterexample :
    (onerror ⟨Status.connected, "", ⟨5, [⟨2, 3⟩]⟩, true, true, true, true, 1⟩).status
        = Status.idle ∧
    decide ((onerror ⟨Status.connected, "", ⟨5, [⟨2, 3⟩]⟩, true, true, true, true, 1⟩).status
        = Status.error) = false := by
  decide

/-- C9 counterexample: a `connect` call made while the session is already
`connected` is not rejected: it proceeds to `connecting`, clears the error
message, and acquires a fresh set of capture/channel resources (the
acquisition count rises from 1 to 2). -/
theorem c9_reentrant_connect_counterexample :
    (connect (some ⟨"Portuguese", "English", "free_chat", "beginner", none⟩)
        ⟨Status.connected, "x", ⟨0, []⟩, true, true, true, true, 1⟩).status
        = Status.connecting ∧
    (connect (some ⟨"Portuguese", "English", "free_chat", "beginner", none⟩)
        ⟨Status.connected, "x", ⟨0, []⟩, true, true, true, true, 1⟩).errorMessage = "" ∧
    (connect (some ⟨"Portuguese", "English", "free_chat", "beginner", none⟩)
        ⟨Status.connected, "x", ⟨0, []⟩, true, true, true, true, 1⟩).acquisitions = 2 := by
  decide

/-- C10 counterexample: the inline-hook `sendTextMessage` sends the text
turn while a previously scheduled chunk is still in the live set — nothing
interrupts or clears playback before the send. -/
theorem c10_playback_survives_send_counterexample :
    (sendTextMessage 1 "Hello" ⟨⟨5, [⟨2, 3⟩]⟩, [], true, []⟩).sched.liveChunks
        = [⟨2, 3⟩] ∧
    (sendTextMessage 1 "Hello" ⟨⟨5, [⟨2, 3⟩]⟩, [], true, []⟩).sent = ["Hello"] := by
  decide

/-- C8 (amended): the `onerror` callback always runs the full teardown —
live chunks stopped and cleared, `nextStartTime` zeroed, mic released, both
contexts closed, channel dropped — and surfaces the error message to the
caller, but the resulting session status is `idle` (the shared `cleanup`
routine's final step), not `error`. -/
theorem c8_error_teardown_to_idle (s : Session) :
    (onerror s).sched.liveChunks = [] ∧
    (onerror s).sched.nextStartTime = 0 ∧
    (onerror s).micOpen = false ∧
    (onerror s).inputCtxOpen = false ∧
    (onerror s).outputCtxOpen = false ∧
    (onerror s).channelOpen = false ∧
    (onerror s).status = Status.idle ∧
    (onerror s).errorMessage = "Connection error. Please try again." := by
  simp [onerror, cleanup]

/-- C9 (amended): `connect` is rejected only when no config is present; with
a config it proceeds regardless of the current status — it moves to
`connecting`, clears the error message, and acquires a fresh set of capture
and channel resources. -/
theorem c9_connect_guard_config_only (s : Session) (c : LanguageConfig) :
    connect none s = s ∧
    (connect (some c) s).status = Status.connecting ∧
    (connect (some c) s).errorMessage = "" ∧
    (connect (some c) s).acquisitions = s.acquisitions + 1 ∧
    (connect (some c) s).micOpen = true ∧
    (connect (some c) s).channelOpen = true := by
  simp [connect]

/-- C10 (amended): the `updateMessages` variant's `sendText`, with the
channel and output context live, stops every live chunk, clears the set and
resets `nextStartTime` to the current clock in the same transition that
appends the optimistic final user message and hands the text to the
channel; no scheduled chunk survives the send. -/
theorem c10_sendText_interrupts_first (s : LiveState) (now : ℤ) (text fresh : String)
    (hch : s.channelOpen = true) (hctx : s.outputCtxOpen = true) :
    (sendText now text fresh s).sched.liveChunks = [] ∧
    (sendText now text fresh s).sched.nextStartTime = now ∧
    (sendText now text fresh s).sent = s.sent ++ [text] ∧
    (sendText now text fresh s).messages
      = s.messages ++ [{ id := fresh, role := Role.user, text := text, isTentative := false }] := by
  simp [sendText, hch, hctx]

/-- C10 witness: `sendText` at clock `7` on a session with one live chunk. -/
theorem c10_sendText_interrupts_first_witness :
    (sendText 7 "Hello" "f" ⟨⟨5, [⟨2, 3⟩]⟩, [], "", "", true, true, []⟩).sched.liveChunks = [] ∧
    (sendText 7 "Hello" "f" ⟨⟨5, [⟨2, 3⟩]⟩, [], "", "", true, true, []⟩).sched.nextStartTime = 7 ∧
    (sendText 7 "Hello" "f" ⟨⟨5, [⟨2, 3⟩]⟩, [], "", "", true, true, []⟩).sent = [] ++ ["Hello"] ∧
    (sendText 7 "Hello" "f" ⟨⟨5, [⟨2, 3⟩]⟩, [], "", "", true, true, []⟩).messages
      = [] ++ [{ id := "f", role := Role.user, text := "Hello", isTentative := false }] :=
  c10_sendText_interrupts_first ⟨⟨5, [⟨2, 3⟩]⟩, [], "", "", true, true, []⟩ 7 "Hello" "f" rfl rfl

/-- The dedup safeguard fires whenever the last message of the log is a
final user message carrying exactly the new text. -/
theorem isDupFinalUser_of_getLast (nt : String) :
    ∀ (msgs : List Msg) (last : Msg), msgs.getLast? = some last →
      last.role = Role.user → last.text = nt → last.isTentative = false →
      isDupFinalUser nt msgs = true := by
  intro msgs
  induction msgs with
  | nil => intro last h; simp at h
  | cons m rest ih =>
    intro last h hrole htext hfin
    cases rest with
    | nil =>
      simp at h
      subst h
      simp [isDupFinalUser, hrole, htext, hfin]
    | cons m2 rest2 =>
      rw [List.getLast?_cons_cons] at h
      exact ih last h hrole htext hfin

/-- C6 (amended): the dedup safeguard applies only on the direct
final-user path — when the log's very last message is already a final user
message with identical text, the finalizing transition is discarded and the
log is unchanged.  (Finalization that lands on an existing tentative
message, and every model finalization, perform no adjacency check, so
adjacent identical final messages of the same role can occur; see the
counterexample.) -/
theorem c6_dedup_guard_last_final_user (msgs : List Msg) (nt fresh : String) (last : Msg)
    (hlast : msgs.getLast? = some last)
    (hrole : last.role = Role.user) (htext : last.text = nt) (hfin : last.isTentative = false) :
    updateMessages nt Role.user true fresh msgs = msgs := by
  have hdup := isDupFinalUser_of_getLast nt msgs last hlast hrole htext hfin
  simp [updateMessages, hdup]

/-- C6 witness: finalizing `"Hi"` for the user when the last message is
already a final user `"Hi"` leaves the log unchanged. -/
theorem c6_dedup_guard_last_final_user_witness :
    updateMessages "Hi" Role.user true "z"
        [{ id := "1", role := Role.user, text := "Hi", isTentative := false }]
      = [{ id := "1", role := Role.user, text := "Hi", isTentative := false }] :=
  c6_dedup_guard_last_final_user
    [{ id := "1", role := Role.user, text := "Hi", isTentative := false }] "Hi" "z"
    { id := "1", role := Role.user, text := "Hi", isTentative := false }
    (by decide) rfl rfl rfl

/-- A transcript delta event only ever appends to each accumulator. -/
theorem stepT_acc_extends (fresh : String) (s : TState) (e : Ev) (hd : e.isDelta = true) :
    (∃ u, (stepT fresh s e).inputAcc = s.inputAcc ++ u) ∧
    (∃ v, (stepT fresh s e).outputAcc = s.outputAcc ++ v) := by
  cases e with
  | deltaModel t =>
    by_cases ht : t = ""
    · exact ⟨⟨"", by simp [stepT, ht]⟩, ⟨"", by simp [stepT, ht]⟩⟩
    · exact ⟨⟨"", by simp [stepT, ht]⟩, ⟨t, by simp [stepT, ht]⟩⟩
  | deltaUser t =>
    by_cases ht : t = ""
    · exact ⟨⟨"", by simp [stepT, ht]⟩, ⟨"", by simp [stepT, ht]⟩⟩
    · exact ⟨⟨t, by simp [stepT, ht]⟩, ⟨"", by simp [stepT, ht]⟩⟩
  | turnComplete => simp [Ev.isDelta] at hd
  | interrupted => simp [Ev.isDelta] at hd

/-- C4: over any sequence of transcript delta events — either role, in any
interleaving, with no `TurnComplete` or `Interrupted` among them — each
role's accumulated tentative text only ever extends: the text before the
sequence is an initial segment of the text after it. -/
theorem c4_monotonic_accumulation (fresh : String) (s : TState) (es : List Ev)
    (h : ∀ e ∈ es, e.isDelta = true) :
    (∃ u, (runT fresh s es).inputAcc = s.inputAcc ++ u) ∧
    (∃ v, (runT fresh s es).outputAcc = s.outputAcc ++ v) := by
  induction es generalizing s with
  | nil => exact ⟨⟨"", by simp [runT]⟩, ⟨"", by simp [runT]⟩⟩
  | cons e es ih =>
    obtain ⟨⟨u1, hu1⟩, ⟨v1, hv1⟩⟩ :=
      stepT_acc_extends fresh s e (h e (List.mem_cons_self e es))
    obtain ⟨⟨u2, hu2⟩, ⟨v2, hv2⟩⟩ :=
      ih (stepT fresh s e) (fun e2 he2 => h e2 (List.mem_cons_of_mem e he2))
    refine ⟨⟨u1 ++ u2, ?_⟩, ⟨v1 ++ v2, ?_⟩⟩
    · show (runT fresh (stepT fresh s e) es).inputAcc = _
      rw [hu2, hu1, String.append_assoc]
    · show (runT fresh (stepT fresh s e) es).outputAcc = _
      rw [hv2, hv1, String.append_assoc]

/-- C4 witness: the interleaved delta sequence user `"Hel"`, model `"Hi"`,
user `"lo"` applied from the empty reconciler state. -/
theorem c4_monotonic_accumulation_witness :
    (∃ u, (runT "w" ⟨[], "", ""⟩
        [Ev.deltaUser "Hel", Ev.deltaModel "Hi", Ev.deltaUser "lo"]).inputAcc = "" ++ u) ∧
    (∃ v, (runT "w" ⟨[], "", ""⟩
        [Ev.deltaUser "Hel", Ev.deltaModel "Hi", Ev.deltaUser "lo"]).outputAcc = "" ++ v) :=
  c4_monotonic_accumulation "w" ⟨[], "", ""⟩
    [Ev.deltaUser "Hel", Ev.deltaModel "Hi", Ev.deltaUser "lo"] (by decide)

/-- Tentative counts add over list concatenation. -/
theorem tentCount_append (r : Role) (l1 l2 : List Msg) :
    tentCount r (l1 ++ l2) = tentCount r l1 + tentCount r l2 := by
  induction l1 with
  | nil => simp [tentCount]
  | cons m rest ih => simp [tentCount, ih]; omega

/-- When the backwards search finds no tentative message of a role, the log
holds none. -/
theorem updateLastTentative_none (r : Role) (f : Msg → Msg) :
    ∀ msgs, updateLastTentative r f msgs = none → tentCount r msgs = 0 := by
  intro msgs
  induction msgs with
  | nil => intro _; simp [tentCount]
  | cons m rest ih =>
    intro h
    cases hrest : updateLastTentative r f rest with
    | some rest2 => simp [updateLastTentative, hrest] at h
    | none =>
      simp only [updateLastTentative, hrest] at h
      have hm : ¬(m.role = r ∧ m.isTentative = true) := by
        intro hp
        simp [if_pos hp] at h
      simp [tentCount, if_neg hm, ih hrest]

/-- An in-place update by a role-preserving, tentativeness-non-raising
function never increases any role's tentative count. -/
theorem updateLastTentative_some_le (r r2 : Role) (f : Msg → Msg)
    (hf : ∀ m, (f m).role = m.role ∧ ((f m).isTentative = true → m.isTentative = true)) :
    ∀ msgs msgs2, updateLastTentative r f msgs = some msgs2 →
      tentCount r2 msgs2 ≤ tentCount r2 msgs := by
  intro msgs
  induction msgs with
  | nil => intro msgs2 h; simp [updateLastTentative] at h
  | cons m rest ih =>
    intro msgs2 h
    cases hrest : updateLastTentative r f rest with
    | some rest2 =>
      simp only [updateLastTentative, hrest] at h
      have hmsgs2 : msgs2 = m :: rest2 := by
        cases h
        rfl
      subst hmsgs2
      simp only [tentCount]
      exact Nat.add_le_add_left (ih rest2 hrest) _
    | none =>
      simp only [updateLastTentative, hrest] at h
      split at h
      · have hmsgs2 : msgs2 = f m :: rest := by
          cases h
          rfl
        subst hmsgs2
        simp only [tentCount]
        have hind : (if (f m).role = r2 ∧ (f m).isTentative = true then 1 else 0)
            ≤ (if m.role = r2 ∧ m.isTentative = true then 1 else 0) := by
          by_cases hc : (f m).role = r2 ∧ (f m).isTentative = true
          · rw [if_pos hc, if_pos ⟨((hf m).1).symm.trans hc.1, (hf m).2 hc.2⟩]
          · rw [if_neg hc]
            exact Nat.zero_le _
        exact Nat.add_le_add_right hind _
      · cases h

/-- `updateMessages` preserves the at-most-one-tentative-per-role bound: it
either discards, updates one message in place without raising
tentativeness, or appends one new message into a log holding no tentative
message of that role. -/
theorem updateMessages_tentCount (nt : String) (r : Role) (fin : Bool) (fresh : String)
    (msgs : List Msg) (r2 : Role) (h : tentCount r2 msgs ≤ 1) :
    tentCount r2 (updateMessages nt r fin fresh msgs) ≤ 1 := by
  unfold updateMessages
  split
  · exact h
  · have hf : ∀ m, ((if fin then finalizeMsg nt else retextMsg nt) m).role = m.role ∧
        (((if fin then finalizeMsg nt else retextMsg nt) m).isTentative = true →
          m.isTentative = true) := by
      intro m
      cases fin <;> simp [finalizeMsg, retextMsg]
    cases hupd : updateLastTentative r (if fin then finalizeMsg nt else retextMsg nt) msgs with
    | some msgs2 =>
      exact le_trans (updateLastTentative_some_le r r2 _ hf msgs msgs2 hupd) h
    | none =>
      show tentCount r2 (if nt = "" then msgs
        else msgs ++ [{ id := fresh, role := r, text := nt, isTentative := !fin }]) ≤ 1
      split
      · exact h
      · rw [tentCount_append]
        have h0 := updateLastTentative_none r _ msgs hupd
        cases fin with
        | true => simpa [tentCount] using h
        | false =>
          by_cases hr : r = r2
          · subst hr
            simp [tentCount, h0]
          · simpa [tentCount, hr] using h

/-- Every reconciler event preserves the at-most-one-tentative-per-role
bound. -/
theorem stepT_tentCount (fresh : String) (s : TState) (e : Ev) (r2 : Role)
    (h : tentCount r2 s.messages ≤ 1) :
    tentCount r2 (stepT fresh s e).messages ≤ 1 := by
  cases e with
  | deltaModel t =>
    by_cases ht : t = ""
    · simpa [stepT, ht] using h
    · simp only [stepT, if_neg ht]
      exact updateMessages_tentCount _ _ _ _ _ _ h
  | deltaUser t =>
    by_cases ht : t = ""
    · simpa [stepT, ht] using h
    · simp only [stepT, if_neg ht]
      exact updateMessages_tentCount _ _ _ _ _ _ h
  | turnComplete =>
    have h1 : tentCount r2 (finalizeInput fresh s).messages ≤ 1 := by
      unfold finalizeInput
      split
      · exact h
      · exact updateMessages_tentCount _ _ _ _ _ _ h
    show tentCount r2 (finalizeOutput fresh (finalizeInput fresh s)).messages ≤ 1
    unfold finalizeOutput
    split
    · exact h1
    · show tentCount r2 (updateMessages (finalizeInput fresh s).outputAcc Role.model true fresh
        (finalizeInput fresh s).messages) ≤ 1
      exact updateMessages_tentCount _ _ _ _ _ _ h1
  | interrupted =>
    by_cases hout : s.outputAcc = ""
    · simpa [stepT, hout] using h
    · simp only [stepT, if_neg hout]
      exact updateMessages_tentCount _ _ _ _ _ _ h

/-- C5 (amended): in the `updateMessages` reconciler variant, any sequence
of events — deltas of both roles in arbitrary interleavings, turn
completions and interruptions — run from a log with at most one tentative
message per role keeps at most one tentative message per role.  (The
inline-hook last-message-append variant violates this bound; see the
counterexample.) -/
theorem c5_at_most_one_tentative (fresh : String) (s : TState) (es : List Ev)
    (h : ∀ r2, tentCount r2 s.messages ≤ 1) :
    ∀ r2, tentCount r2 (runT fresh s es).messages ≤ 1 := by
  induction es generalizing s with
  | nil => simpa [runT] using h
  | cons e es ih =>
    exact ih (stepT fresh s e) (fun r2 => stepT_tentCount fresh s e r2 (h r2))

/-- C5 witness: the interleaved delta sequence user `"Hel"`, model `"Hi"`,
user `"lo"` from the empty log keeps both roles' tentative counts at one at
most. -/
theorem c5_at_most_one_tentative_witness :
    tentCount Role.user (runT "w" ⟨[], "", ""⟩
        [Ev.deltaUser "Hel", Ev.deltaModel "Hi", Ev.deltaUser "lo"]).messages ≤ 1 ∧
    tentCount Role.model (runT "w" ⟨[], "", ""⟩
        [Ev.deltaUser "Hel", Ev.deltaModel "Hi", Ev.deltaUser "lo"]).messages ≤ 1 :=
  ⟨c5_at_most_one_tentative "w" ⟨[], "", ""⟩
      [Ev.deltaUser "Hel", Ev.deltaModel "Hi", Ev.deltaUser "lo"]
      (fun r2 => by simp [tentCount]) Role.user,
   c5_at_most_one_tentative "w" ⟨[], "", ""⟩
      [Ev.deltaUser "Hel", Ev.deltaModel "Hi", Ev.deltaUser "lo"]
      (fun r2 => by simp [tentCount]) Role.model⟩

/-- Role sublists distribute over concatenation. -/
theorem msgsOfRole_append (r : Role) (l1 l2 : List Msg) :
    msgsOfRole r (l1 ++ l2) = msgsOfRole r l1 ++ msgsOfRole r l2 := by
  induction l1 with
  | nil => simp [msgsOfRole]
  | cons m rest ih =>
    by_cases hm : m.role = r <;> simp [msgsOfRole, hm, ih]

/-- An in-place update of one role's tentative message by a role-preserving
function leaves the other role's sublist of the log untouched. -/
theorem updateLastTentative_msgsOfRole (r r2 : Role) (f : Msg → Msg)
    (hf : ∀ m, (f m).role = m.role) (hne : r2 ≠ r) :
    ∀ msgs msgs2, updateLastTentative r f msgs = some msgs2 →
      msgsOfRole r2 msgs2 = msgsOfRole r2 msgs := by
  intro msgs
  induction msgs with
  | nil => intro msgs2 h; simp [updateLastTentative] at h
  | cons m rest ih =>
    intro msgs2 h
    cases hrest : updateLastTentative r f rest with
    | some rest2 =>
      simp only [updateLastTentative, hrest] at h
      have hmsgs2 : msgs2 = m :: rest2 := by
        cases h
        rfl
      subst hmsgs2
      by_cases hm : m.role = r2 <;> simp [msgsOfRole, hm, ih rest2 hrest]
    | none =>
      simp only [updateLastTentative, hrest] at h
      split at h
      · rename_i hp
        have hmsgs2 : msgs2 = f m :: rest := by
          cases h
          rfl
        subst hmsgs2
        have hmr : ¬m.role = r2 := by
          rw [hp.1]
          exact fun hc => hne hc.symm
        have hfr : ¬(f m).role = r2 := by
          rw [hf m, hp.1]
          exact fun hc => hne hc.symm
        simp [msgsOfRole, hmr, hfr]
      · cases h

/-- A model-role `updateMessages` transition never changes the user-role
sublist of the log. -/
theorem updateMessages_model_keeps_user (nt fresh : String) (fin : Bool) (msgs : List Msg) :
    msgsOfRole Role.user (updateMessages nt Role.model fin fresh msgs)
      = msgsOfRole Role.user msgs := by
  unfold updateMessages
  rw [if_neg (by simp)]
  have hf : ∀ m, ((if fin then finalizeMsg nt else retextMsg nt) m).role = m.role := by
    intro m
    cases fin <;> simp [finalizeMsg, retextMsg]
  cases hupd : updateLastTentative Role.model (if fin then finalizeMsg nt else retextMsg nt) msgs with
  | some msgs2 =>
    exact updateLastTentative_msgsOfRole Role.model Role.user _ hf (by simp) msgs msgs2 hupd
  | none =>
    show msgsOfRole Role.user (if nt = "" then msgs
      else msgs ++ [{ id := fresh, role := Role.model, text := nt, isTentative := !fin }])
      = msgsOfRole Role.user msgs
    split
    · rfl
    · simp [msgsOfRole_append, msgsOfRole]

/-- The backwards search that succeeds found a tentative message of the
requested role in the log and placed its image under `f` in the result. -/
theorem updateLastTentative_mem (r : Role) (f : Msg → Msg) :
    ∀ msgs msgs2, updateLastTentative r f msgs = some msgs2 →
      ∃ m0, m0 ∈ msgs ∧ m0.role = r ∧ m0.isTentative = true ∧ f m0 ∈ msgs2 := by
  intro msgs
  induction msgs with
  | nil => intro msgs2 h; simp [updateLastTentative] at h
  | cons m rest ih =>
    intro msgs2 h
    cases hrest : updateLastTentative r f rest with
    | some rest2 =>
      simp only [updateLastTentative, hrest] at h
      have hmsgs2 : msgs2 = m :: rest2 := by
        cases h
        rfl
      subst hmsgs2
      obtain ⟨m0, hmem, hrole, htent, hfm⟩ := ih rest2 hrest
      exact ⟨m0, List.mem_cons_of_mem m hmem, hrole, htent, List.mem_cons_of_mem m hfm⟩
    | none =>
      simp only [updateLastTentative, hrest] at h
      split at h
      · rename_i hp
        have hmsgs2 : msgs2 = f m :: rest := by
          cases h
          rfl
        subst hmsgs2
        exact ⟨m, List.mem_cons_self m rest, hp.1, hp.2, List.mem_cons_self (f m) rest⟩
      · cases h

/-- A nonempty model finalization through `updateMessages` leaves a final
model message carrying exactly the finalized text in the log. -/
theorem updateMessages_model_final_mem (nt fresh : String) (msgs : List Msg) (hnt : nt ≠ "") :
    ∃ m ∈ updateMessages nt Role.model true fresh msgs,
      m.role = Role.model ∧ m.isTentative = false ∧ m.text = nt := by
  unfold updateMessages
  rw [if_neg (by simp)]
  have hfeq : (if true then finalizeMsg nt else retextMsg nt) = finalizeMsg nt := rfl
  rw [hfeq]
  cases hupd : updateLastTentative Role.model (finalizeMsg nt) msgs with
  | some msgs2 =>
    obtain ⟨m0, _, hrole, _, hfm⟩ := updateLastTentative_mem Role.model (finalizeMsg nt) msgs msgs2 hupd
    refine ⟨finalizeMsg nt m0, hfm, ?_, rfl, ?_⟩
    · simpa [finalizeMsg] using hrole
    · simp [finalizeMsg, hnt]
  | none =>
    show ∃ m ∈ (if nt = "" then msgs
      else msgs ++ [{ id := fresh, role := Role.model, text := nt, isTentative := !true }]),
      m.role = Role.model ∧ m.isTentative = false ∧ m.text = nt
    rw [if_neg hnt]
    exact ⟨{ id := fresh, role := Role.model, text := nt, isTentative := !true },
      List.mem_append_right _ (List.mem_singleton.mpr rfl), rfl, rfl, rfl⟩

/-- C3 (amended): in the `updateMessages` reconciler variant, the
`Interrupted` transition leaves the user role untouched — its accumulator
and its entire sublist of the log are unchanged — clears the model
accumulator, and, when model text was pending, leaves a final model message
carrying that text with the truncation marker `" ..."` appended.  (The
inline-hook variant instead finalizes every message, the user's included,
with no marker; see the counterexample.) -/
theorem c3_interrupt_finalizes_model_only (s : TState) (fresh : String) :
    (stepT fresh s Ev.interrupted).inputAcc = s.inputAcc ∧
    (stepT fresh s Ev.interrupted).outputAcc = "" ∧
    msgsOfRole Role.user (stepT fresh s Ev.interrupted).messages
      = msgsOfRole Role.user s.messages ∧
    (s.outputAcc ≠ "" →
      ∃ m ∈ (stepT fresh s Ev.interrupted).messages,
        m.role = Role.model ∧ m.isTentative = false ∧ m.text = s.outputAcc ++ " ...") := by
  by_cases hout : s.outputAcc = ""
  · exact ⟨by simp [stepT, hout], by simp [stepT, hout], by simp [stepT, hout],
      fun hc => absurd hout hc⟩
  · have happ : s.outputAcc ++ " ..." ≠ "" := by
      intro hcontra
      have hlen := congrArg String.length hcontra
      rw [String.length_append] at hlen
      have h4 : (" ..." : String).length = 4 := rfl
      have h0 : ("" : String).length = 0 := rfl
      rw [h4, h0] at hlen
      omega
    refine ⟨by simp [stepT, hout], by simp [stepT, hout], ?_, fun _ => ?_⟩
    · simp only [stepT, if_neg hout]
      exact updateMessages_model_keeps_user _ _ _ _
    · simp only [stepT, if_neg hout]
      exact updateMessages_model_final_mem _ _ _ happ

/-- C3 witness: an interrupt with pending model text `"I think"` and a user
tentative `"he"` in the log. -/
theorem c3_interrupt_finalizes_model_only_witness :
    ((stepT "c" ⟨[{ id := "a", role := Role.model, text := "I think", isTentative := true },
                  { id := "b", role := Role.user, text := "he", isTentative := true }],
        "he", "I think"⟩ Ev.interrupted).inputAcc = "he") ∧
    ((stepT "c" ⟨[{ id := "a", role := Role.model, text := "I think", isTentative := true },
                  { id := "b", role := Role.user, text := "he", isTentative := true }],
        "he", "I think"⟩ Ev.interrupted).outputAcc = "") ∧
    (∃ m ∈ (stepT "c" ⟨[{ id := "a", role := Role.model, text := "I think", isTentative := true },
                  { id := "b", role := Role.user, text := "he", isTentative := true }],
        "he", "I think"⟩ Ev.interrupted).messages,
      m.role = Role.model ∧ m.isTentative = false ∧ m.text = "I think" ++ " ...") := by
  have h := c3_interrupt_finalizes_model_only
    ⟨[{ id := "a", role := Role.model, text := "I think", isTentative := true },
      { id := "b", role := Role.user, text := "he", isTentative := true }],
      "he", "I think"⟩ "c"
  exact ⟨h.1, h.2.1, h.2.2.2 (by decide)⟩

end SpeakToMe
